import Mathlib

/-!
Verification development for the ROV dataset-preparation pipeline
(`scripts/prepare_and_split.py`, `scripts/fix_invalid_train.py`).

The Python code is shallowly embedded: the filesystem is an association
list from destination descriptors to source contents, Python's
`random` module and numpy's `RandomState` are modelled as deterministic
pseudo-random streams over `Nat` states (the claims under study depend
only on determinism, seed-dependence and value ranges of the streams,
never on the exact Mersenne-Twister values), and exceptions become
`Except`.
-/

/-- Model of the pseudo-random generator step used by both `random`
(Python) and `RandomState` (numpy) in this development: a linear
congruential generator standing in for the Mersenne Twister.  All claims
proved below depend only on the stream being a deterministic function of
its state. -/
def lcg (s : Nat) : Nat := (s * 1103515245 + 12345) % 2147483648

/-- Model of `random.seed(k)`: the module RNG state becomes a
deterministic function of `k`, discarding whatever state preceded it. -/
def pySeed (k : Nat) : Nat := lcg k

/-- Model of `random.randint(0, 99999)`: the value drawn from state `s`,
always in `[0, 99999]`. -/
def randint99999 (s : Nat) : Nat := s % 100000

/-- Fuel-indexed Fisher–Yates shuffle driven by `lcg`, the model of
`rng.permutation` inside sklearn's `train_test_split(shuffle=True)`.
With fuel `≥` the list length it produces a permutation of the input. -/
def shuffleGo : Nat → Nat → List String → List String
  | 0, _, _ => []
  | _ + 1, _, [] => []
  | fuel + 1, s, x :: xs =>
      let y := (x :: xs).get ⟨s % (xs.length + 1), Nat.mod_lt _ (Nat.succ_pos _)⟩
      y :: shuffleGo fuel (lcg s) ((x :: xs).erase y)

/-- The seeded shuffle of a file list: model of the permutation drawn by
`train_test_split(..., random_state=seed, shuffle=True)`. -/
def shuffle (seed : Nat) (l : List String) : List String :=
  shuffleGo l.length seed l

theorem shuffleGo_perm : ∀ (fuel s : Nat) (l : List String),
    l.length ≤ fuel → (shuffleGo fuel s l).Perm l := by
  intro fuel
  induction fuel with
  | zero =>
    intro s l h
    have : l = [] := List.length_eq_zero.mp (Nat.le_zero.mp h)
    subst this
    simp [shuffleGo]
  | succ n ih =>
    intro s l h
    match l with
    | [] => simp [shuffleGo]
    | x :: xs =>
      simp only [shuffleGo]
      set y := (x :: xs).get ⟨s % (xs.length + 1), Nat.mod_lt _ (Nat.succ_pos _)⟩ with hy
      have hmem : y ∈ x :: xs := List.get_mem _ _ _
      have hlen : ((x :: xs).erase y).length = xs.length := by
        rw [List.length_erase_of_mem hmem]
        simp
      have hle : ((x :: xs).erase y).length ≤ n := by
        rw [hlen]
        have : xs.length + 1 ≤ n + 1 := by simpa using h
        omega
      have hperm := ih (lcg s) ((x :: xs).erase y) hle
      exact (hperm.cons y).trans (List.perm_cons_erase hmem).symm

theorem shuffle_perm (seed : Nat) (l : List String) : (shuffle seed l).Perm l :=
  shuffleGo_perm _ _ _ le_rfl

theorem shuffle_length (seed : Nat) (l : List String) :
    (shuffle seed l).length = l.length :=
  (shuffle_perm seed l).length_eq

/-- The `map_to_command` dictionary of `prepare_and_split.py`: raw folder
name (lower-cased) to target class name. -/
def map_to_command : List (String × String) :=
  [("like", "Forward"), ("fist", "Reverse"), ("palm", "Stop"),
   ("one", "Left"), ("peace", "Right")]

/-- The `TARGET_CLASSES` list of `prepare_and_split.py`. -/
def TARGET_CLASSES : List String :=
  ["Forward", "Reverse", "Stop", "Left", "Right", "Invalid"]

/-- The three split names, in the iteration order used by the script. -/
def SPLITS : List String := ["train", "val", "test"]

/-- Model of Python's `str.lower()` (ASCII case folding, which covers
every label and extension the script handles). -/
def strToLower (s : String) : String := ⟨s.data.map Char.toLower⟩

/-- Model of `map_to_command.get(src.lower(), "Invalid")`: the label
lookup performed by `collect_images_per_class`. -/
def mapLabel (lbl : String) : String :=
  ((map_to_command).lookup (strToLower lbl)).getD "Invalid"

/-- Model of `ensure_dirs`: the set of `(split, class)` directories
created (idempotently) before any file is written. -/
def ensure_dirs : List (String × String) :=
  SPLITS.flatMap fun s => TARGET_CLASSES.map fun c => (s, c)

/-- Model of `str.endswith(suffix)`. -/
def endsWithStr (suffix s : String) : Bool := suffix.data.isSuffixOf s.data

/-- Model of `f.lower().endswith((".jpg", ".jpeg", ".png"))`. -/
def isImage (f : String) : Bool :=
  endsWithStr ".jpg" (strToLower f) || endsWithStr ".jpeg" (strToLower f) ||
    endsWithStr ".png" (strToLower f)

/-- Model of `os.path.join` (separators normalised to `/`). -/
def joinPath (a b : String) : String := a ++ "/" ++ b

/-- A raw-root directory listing: each immediate subdirectory name with
the file names it contains.  `none` stands for a missing raw root. -/
abbrev Listing := List (String × List String)

/-- Model of `entries.setdefault(mapped, [])` followed by appending the
files found for one raw directory: appends to the bucket of `cls` if it
already exists (keeping insertion order), otherwise adds a new bucket at
the end — Python dicts preserve insertion order. -/
def addEntry : List (String × List String) → String → List String →
    List (String × List String)
  | [], cls, fs => [(cls, fs)]
  | (c, l) :: rest, cls, fs =>
      if c = cls then (c, l ++ fs) :: rest else (c, l) :: addEntry rest cls fs

/-- Model of `collect_images_per_class`: group image files (by extension
allow-list) of each immediate subdirectory under the mapped class.  A
missing raw root yields the empty mapping (the code prints an error and
returns `{}`). -/
def collect_images_per_class (rawRoot : String) (raw : Option Listing) :
    List (String × List String) :=
  match raw with
  | none => []
  | some dirs =>
      dirs.foldl
        (fun entries p =>
          addEntry entries (mapLabel p.1)
            ((p.2.filter isImage).map fun f => joinPath (joinPath rawRoot p.1) f))
        []

/-- Model of `os.path.basename`: everything after the last separator
(the whole name when no separator occurs). -/
def basename (p : String) : String :=
  ⟨(p.data.reverse.takeWhile fun c => decide (c ≠ '/')).reverse⟩

/-- Model of `os.path.splitext` on a basename: split before the last
dot, except that a name whose part before that dot is empty or all dots
(a dot-file) is not split — CPython's rule. -/
def splitext (f : String) : String × String :=
  let rev := f.data.reverse
  let extRev := rev.takeWhile fun c => decide (c ≠ '.')
  match rev.dropWhile fun c => decide (c ≠ '.') with
  | [] => (f, "")
  | _ :: stemRev =>
      if stemRev.all fun c => decide (c = '.') then (f, "")
      else (⟨stemRev.reverse⟩, ⟨'.' :: extRev.reverse⟩)

/-- `RANDOM_SEED = 42` from the script's configuration block. -/
def RANDOM_SEED : Nat := 42

/-- ` TRAIN_RATIO = 0.8` as an exact rational. -/
def TRAIN_RATIO : ℚ := 8 / 10

/-- ` VAL_RATIO = 0.1` as an exact rational. -/
def VAL_RATIO : ℚ := 1 / 10

/-- ` TEST_RATIO = 0.1` as an exact rational. -/
def TEST_RATIO : ℚ := 1 / 10

/-- Number of train samples chosen by
`train_test_split(files, train_size=0.8)`: sklearn computes
`n_train = floor(train_size * n)`; with `train_size = 0.8` this is
`4 * n / 5` exactly (`Nat` division). -/
def nTrainOf (n : Nat) : Nat := 4 * n / 5

/-- Number of test samples chosen by the second
`train_test_split(temp, test_size= TEST_RATIO/( TEST_RATIO+ VAL_RATIO))`:
the size argument is exactly `1/2` and sklearn computes
`n_test = ceil(test_size * m) = (m + 1) / 2` (`Nat` division). -/
def nTestValOf (m : Nat) : Nat := (m + 1) / 2

/-- Model of `train_test_split(files, train_size= TRAIN_RATIO,
random_state=seed, shuffle=True)` returning `(train, temp)`.
sklearn draws a permutation from the seeded generator, takes
`perm[:n_test]` as the test part (here bound to `temp`) and
`perm[n_test:n_test+n_train]` as the train part, and raises
`ValueError` when the train part would be empty. -/
def splitTrainTemp (seed : Nat) (files : List String) :
    Except String (List String × List String) :=
  let n := files.length
  let nTrain := nTrainOf n
  let nTest := n - nTrain
  if nTrain = 0 then .error "ValueError: the resulting train set will be empty"
  else
    let sh := shuffle seed files
    .ok ((sh.drop nTest).take nTrain, sh.take nTest)

/-- Model of the second `train_test_split(temp,
test_size= TEST_RATIO/( TEST_RATIO+ VAL_RATIO), random_state=seed,
shuffle=True)` returning `(val, test)`; raises when the val (train-side)
part would be empty. -/
def splitValTest (seed : Nat) (files : List String) :
    Except String (List String × List String) :=
  let m := files.length
  let nTest := nTestValOf m
  let nVal := m - nTest
  if nVal = 0 then .error "ValueError: the resulting train set will be empty"
  else
    let sh := shuffle seed files
    .ok ((sh.drop nTest).take nVal, sh.take nTest)

/-- The two-stage split of one class's file list performed inside
`copy_split` (lines 103–114): first split off train, then divide the
remainder into val and test. -/
def splitClass (seed : Nat) (files : List String) :
    Except String (List String × List String × List String) :=
  match splitTrainTemp seed files with
  | .error e => .error e
  | .ok (tr, temp) =>
      match splitValTest seed temp with
      | .error e => .error e
      | .ok (va, te) => .ok (tr, va, te)

/-- A destination path inside the output tree:
`{out_root}/{split}/{cls}/{name}`. -/
structure Dest where
  split : String
  cls : String
  name : String
deriving DecidableEq, Repr

/-- The output tree as an association list from destination paths to the
source file each copy came from (`shutil.copy2` makes the destination's
contents those of the source, so the source path identifies them).
Insertion order models creation order. -/
abbrev FS := List (Dest × String)

/-- Contents found at destination `d`, if a file exists there. -/
def fsLookup : FS → Dest → Option String
  | [], _ => none
  | (d', v) :: rest, d => if d' = d then some v else fsLookup rest d

/-- Model of `os.path.exists(dst)` for a destination inside the output
tree. -/
def fsMem (fs : FS) (d : Dest) : Bool := (fsLookup fs d).isSome

/-- Model of `shutil.copy2(src, dst)`: writes `dst`; if a file already
exists there it is silently replaced. -/
def fsInsert : FS → Dest → String → FS
  | [], d, v => [(d, v)]
  | (d', v') :: rest, d, v =>
      if d' = d then (d, v) :: rest else (d', v') :: fsInsert rest d v

/-- The suffixed destination used on a collision:
`f"{base_name}_{random.randint(0, 99999)}{ext}"` with the suffix drawn
from RNG state `rng`. -/
def suffixedDest (split cls name : String) (rng : Nat) : Dest :=
  ⟨split, cls, (splitext name).1 ++ "_" ++ toString (randint99999 rng) ++ (splitext name).2⟩

/-- State threaded through `copy_split`'s copy loop: the output tree,
the `random` module RNG state, and the `total_copied` counter. -/
structure MatState where
  fs : FS
  rng : Nat
  totalCopied : Nat
deriving DecidableEq, Repr

/-- One iteration of `copy_split`'s inner loop (lines 133–147): compute
`dst` from the source basename; on collision re-aim at the suffixed
name (consuming one RNG draw) — and then copy unconditionally, so a file
already present at the suffixed name is silently overwritten. -/
def materializeFile (split cls : String) (st : MatState) (src : String) : MatState :=
  let name := basename src
  if fsMem st.fs ⟨split, cls, name⟩ then
    { fs := fsInsert st.fs (suffixedDest split cls name st.rng) src
      rng := lcg st.rng
      totalCopied := st.totalCopied + 1 }
  else
    { fs := fsInsert st.fs ⟨split, cls, name⟩ src
      rng := st.rng
      totalCopied := st.totalCopied + 1 }

/-- Copy every file of one split of one class, in list order. -/
def materializeList (split cls : String) (files : List String) (st : MatState) : MatState :=
  files.foldl (materializeFile split cls) st

/-- `copy_split`'s body for one class (lines 94–160): a class with no
images is skipped with a warning; otherwise the class is split and its
three splits are copied in the order train, val, test.  A `ValueError`
from `train_test_split` aborts the whole run. -/
def processClass (seed : Nat) (st : MatState) (cls : String) (files : List String) :
    Except String MatState :=
  if files.length = 0 then .ok st
  else
    match splitClass seed files with
    | .error e => .error e
    | .ok (tr, va, te) =>
        .ok (materializeList "test" cls te
              (materializeList "val" cls va
                (materializeList "train" cls tr st)))

/-- Total number of scanned files: `sum(len(files) for files in
entries.values())`. -/
def totalScanned (entries : List (String × List String)) : Nat :=
  (entries.map fun p => p.2.length).sum

/-- The `for cls_idx, (cls, files) in enumerate(entries.items(), 1)` loop
of `copy_split`: process each class in dict insertion order, aborting the
whole run on the first exception. -/
def copySplitGo (seed : Nat) (st : MatState) :
    List (String × List String) → Except String MatState
  | [] => .ok st
  | p :: rest =>
      match processClass seed st p.1 p.2 with
      | .error e => .error e
      | .ok st1 => copySplitGo seed st1 rest

/-- Model of `copy_split(entries, out_root)`: seeds the module RNG with
`random.seed(RANDOM_SEED)` — discarding the interpreter's prior RNG state
`entropy` — then splits and copies every class.  Completing with `.ok`
models the script printing its `[DONE]` summary and returning normally;
no comparison between planned and materialized counts is performed. -/
def copy_split (seed : Nat) (entropy : Nat) (entries : List (String × List String)) :
    Except String MatState :=
  copySplitGo seed { fs := [], rng := pySeed seed, totalCopied := 0 } entries

/-- Model of `verify_output`: re-scan the output tree and return the
total number of image files found (the function only prints per-class
counts and returns this total; it checks nothing). -/
def verify_output (fs : FS) : Nat := (fs.filter fun p => isImage p.1.name).length

/-- Model of `check_source_directory` combined with the `__main__`
pre-flight gate: the run proceeds past startup iff the raw root exists
and contains at least one subdirectory.  The split ratios are accepted
unexamined — the script contains no ratio validation — which the unused
`ratios` parameter records. -/
def startup_gate (ratios : ℚ × ℚ × ℚ) (raw : Option Listing) : Bool :=
  match raw with
  | none => false
  | some dirs => !dirs.isEmpty

/-- Model of `random.sample(files, k)` (unseeded in
`fix_invalid_train.py`): `k` distinct positions of `files`, drawn from
the interpreter's RNG state `s`. -/
def random_sample (s : Nat) (files : List String) (k : Nat) : List String :=
  (shuffle s files).take k

/-- Model of `fix_invalid_train.py`: list the class directory; if it
holds more than `maxImages` files, delete a random sample of
`len(files) - maxImages` of them; otherwise do nothing.  `initState` is
the interpreter's RNG state at the `random.sample` call — the script
never calls `random.seed`. -/
def fix_invalid_train (initState : Nat) (maxImages : Nat) (files : List String) :
    List String :=
  if maxImages < files.length then
    let del := random_sample initState files (files.length - maxImages)
    files.filter fun f => !(decide (f ∈ del))
  else files

theorem nTrainOf_le (n : Nat) : nTrainOf n ≤ n := by
  unfold nTrainOf; omega

theorem splitTrainTemp_ok {seed : Nat} {files tr temp : List String}
    (h : splitTrainTemp seed files = .ok (tr, temp)) :
    nTrainOf files.length ≠ 0 ∧
    tr = (shuffle seed files).drop (files.length - nTrainOf files.length) ∧
    temp = (shuffle seed files).take (files.length - nTrainOf files.length) := by
  unfold splitTrainTemp at h
  by_cases h0 : nTrainOf files.length = 0
  · simp [h0] at h
  · refine ⟨h0, ?_, ?_⟩
    · simp only [if_neg h0, Except.ok.injEq, Prod.mk.injEq] at h
      rw [← h.1]
      apply List.take_of_length_le
      rw [List.length_drop, shuffle_length]
      have := nTrainOf_le files.length
      omega
    · simp only [if_neg h0, Except.ok.injEq, Prod.mk.injEq] at h
      exact h.2.symm

theorem splitValTest_ok {seed : Nat} {files va te : List String}
    (h : splitValTest seed files = .ok (va, te)) :
    nTestValOf files.length < files.length ∧
    va = (shuffle seed files).drop (nTestValOf files.length) ∧
    te = (shuffle seed files).take (nTestValOf files.length) := by
  unfold splitValTest at h
  by_cases h0 : files.length - nTestValOf files.length = 0
  · simp [h0] at h
  · refine ⟨by omega, ?_, ?_⟩
    · simp only [if_neg h0, Except.ok.injEq, Prod.mk.injEq] at h
      rw [← h.1]
      apply List.take_of_length_le
      rw [List.length_drop, shuffle_length]
    · simp only [if_neg h0, Except.ok.injEq, Prod.mk.injEq] at h
      exact h.2.symm

theorem splitClass_spec {seed : Nat} {files tr va te : List String}
    (h : splitClass seed files = .ok (tr, va, te)) :
    tr.length = nTrainOf files.length ∧
    te.length = nTestValOf (files.length - nTrainOf files.length) ∧
    va.length + te.length = files.length - nTrainOf files.length ∧
    tr.length + va.length + te.length = files.length ∧
    (tr ++ va ++ te).Perm files := by
  cases h1 : splitTrainTemp seed files with
  | error e => simp [splitClass, h1] at h
  | ok p =>
    obtain ⟨tr1, temp⟩ := p
    cases h2 : splitValTest seed temp with
    | error e => simp [splitClass, h1, h2] at h
    | ok q =>
      obtain ⟨va1, te1⟩ := q
      simp only [splitClass, h1, h2, Except.ok.injEq, Prod.mk.injEq] at h
      obtain ⟨htr, hva, hte⟩ := h
      subst htr hva hte
      obtain ⟨hg1, htr1, htemp⟩ := splitTrainTemp_ok h1
      obtain ⟨hg2, hva1, hte1⟩ := splitValTest_ok h2
      have hshlen : (shuffle seed files).length = files.length := shuffle_length _ _
      have hle : nTrainOf files.length ≤ files.length := nTrainOf_le _
      have htemplen : temp.length = files.length - nTrainOf files.length := by
        rw [htemp, List.length_take, hshlen]
        omega
      have hsh2len : (shuffle seed temp).length = temp.length := shuffle_length _ _
      have htrlen : tr1.length = nTrainOf files.length := by
        rw [htr1, List.length_drop, hshlen]
        omega
      have htelen : te1.length = nTestValOf temp.length := by
        rw [hte1, List.length_take, hsh2len]
        omega
      have hvalen : va1.length = temp.length - nTestValOf temp.length := by
        rw [hva1, List.length_drop, hsh2len]
      have hperm : (tr1 ++ va1 ++ te1).Perm files := by
        have hvt : (va1 ++ te1).Perm temp := by
          rw [hva1, hte1]
          refine (List.perm_append_comm).trans ?_
          have hx : (shuffle seed temp).take (nTestValOf temp.length) ++
              (shuffle seed temp).drop (nTestValOf temp.length) = shuffle seed temp :=
            List.take_append_drop _ _
          rw [hx]
          exact shuffle_perm seed temp
        have htt : (tr1 ++ temp).Perm files := by
          rw [htr1, htemp]
          refine (List.perm_append_comm).trans ?_
          have hx : (shuffle seed files).take (files.length - nTrainOf files.length) ++
              (shuffle seed files).drop (files.length - nTrainOf files.length) =
              shuffle seed files :=
            List.take_append_drop _ _
          rw [hx]
          exact shuffle_perm seed files
        rw [List.append_assoc]
        exact (hvt.append_left tr1).trans htt
      refine ⟨htrlen, by rw [htelen, htemplen], by omega, ?_, hperm⟩
      have := hperm.length_eq
      simp only [List.length_append] at this
      omega

theorem splitClass_isOk {seed : Nat} {files : List String}
    (h6 : 6 ≤ files.length) :
    ∃ tr va te, splitClass seed files = .ok (tr, va, te) := by
  have h0 : nTrainOf files.length ≠ 0 := by
    unfold nTrainOf; omega
  have h1 : splitTrainTemp seed files =
      .ok (((shuffle seed files).drop (files.length - nTrainOf files.length)).take
             (nTrainOf files.length),
           (shuffle seed files).take (files.length - nTrainOf files.length)) := by
    unfold splitTrainTemp
    rw [if_neg h0]
  have htemplen : ((shuffle seed files).take
      (files.length - nTrainOf files.length)).length =
      files.length - nTrainOf files.length := by
    rw [List.length_take, shuffle_length]
    have := nTrainOf_le files.length
    omega
  have h2guard : ((shuffle seed files).take
      (files.length - nTrainOf files.length)).length -
      nTestValOf ((shuffle seed files).take
        (files.length - nTrainOf files.length)).length ≠ 0 := by
    rw [htemplen]
    unfold nTestValOf nTrainOf
    unfold nTrainOf at h0
    omega
  have h2 : ∃ q, splitValTest seed
      ((shuffle seed files).take (files.length - nTrainOf files.length)) =
      .ok q := by
    unfold splitValTest
    rw [if_neg h2guard]
    exact ⟨_, rfl⟩
  obtain ⟨⟨va, te⟩, h2⟩ := h2
  refine ⟨((shuffle seed files).drop (files.length - nTrainOf files.length)).take
    (nTrainOf files.length), va, te, ?_⟩
  simp only [splitClass, h1, h2]

theorem materializeFile_copied (split cls : String) (st : MatState) (src : String) :
    (materializeFile split cls st src).totalCopied = st.totalCopied + 1 := by
  unfold materializeFile
  dsimp only
  split <;> rfl

theorem materializeFile_fs_length_le (split cls : String) (st : MatState) (src : String) :
    (materializeFile split cls st src).fs.length ≤ st.fs.length + 1 := by
  have hins : ∀ (fs : FS) (d : Dest) (v : String),
      (fsInsert fs d v).length ≤ fs.length + 1 := by
    intro fs d v
    induction fs with
    | nil => simp [fsInsert]
    | cons p rest ih =>
      obtain ⟨d', v'⟩ := p
      unfold fsInsert
      split
      · simp
      · simp
        omega
  unfold materializeFile
  dsimp only
  split <;> exact hins _ _ _

theorem materializeList_copied (split cls : String) (files : List String) (st : MatState) :
    (materializeList split cls files st).totalCopied = st.totalCopied + files.length := by
  induction files generalizing st with
  | nil => simp [materializeList]
  | cons f rest ih =>
    unfold materializeList at ih ⊢
    simp only [List.foldl_cons, List.length_cons]
    rw [ih, materializeFile_copied]
    omega

theorem processClass_copied {seed : Nat} {st st' : MatState} {cls : String}
    {files : List String} (h : processClass seed st cls files = .ok st') :
    st'.totalCopied = st.totalCopied + files.length := by
  unfold processClass at h
  by_cases hn : files.length = 0
  · rw [if_pos hn] at h
    simp only [Except.ok.injEq] at h
    subst h
    omega
  · rw [if_neg hn] at h
    cases hc : splitClass seed files with
    | error e => rw [hc] at h; simp at h
    | ok p =>
      obtain ⟨tr, va, te⟩ := p
      rw [hc] at h
      simp only [Except.ok.injEq] at h
      subst h
      have hs := (splitClass_spec hc).2.2.2.1
      simp only [materializeList_copied]
      omega

theorem copySplitGo_copied {seed : Nat} :
    ∀ (entries : List (String × List String)) (st0 st : MatState),
      copySplitGo seed st0 entries = .ok st →
      st.totalCopied = st0.totalCopied + totalScanned entries := by
  intro entries
  induction entries with
  | nil =>
    intro st0 st h
    simp only [copySplitGo, Except.ok.injEq] at h
    subst h
    simp [totalScanned]
  | cons p rest ih =>
    intro st0 st h
    unfold copySplitGo at h
    cases h1 : processClass seed st0 p.1 p.2 with
    | error e => rw [h1] at h; simp at h
    | ok st1 =>
      rw [h1] at h
      have hrest := ih st1 st h
      have hp := processClass_copied h1
      simp only [totalScanned, List.map_cons, List.sum_cons] at hrest ⊢
      omega

theorem materializeList_fs_le (split cls : String) (files : List String) (st : MatState) :
    (materializeList split cls files st).fs.length ≤ st.fs.length + files.length := by
  induction files generalizing st with
  | nil => simp [materializeList]
  | cons f rest ih =>
    unfold materializeList at ih ⊢
    simp only [List.foldl_cons, List.length_cons]
    calc (List.foldl (materializeFile split cls) (materializeFile split cls st f) rest).fs.length
        ≤ (materializeFile split cls st f).fs.length + rest.length := ih _
      _ ≤ st.fs.length + 1 + rest.length := by
          have := materializeFile_fs_length_le split cls st f
          omega
      _ = st.fs.length + (rest.length + 1) := by omega

theorem processClass_fs_le {seed : Nat} {st st' : MatState} {cls : String}
    {files : List String} (h : processClass seed st cls files = .ok st') :
    st'.fs.length ≤ st.fs.length + files.length := by
  unfold processClass at h
  by_cases hn : files.length = 0
  · rw [if_pos hn] at h
    simp only [Except.ok.injEq] at h
    subst h
    omega
  · rw [if_neg hn] at h
    cases hc : splitClass seed files with
    | error e => rw [hc] at h; simp at h
    | ok p =>
      obtain ⟨tr, va, te⟩ := p
      rw [hc] at h
      simp only [Except.ok.injEq] at h
      subst h
      have hs := (splitClass_spec hc).2.2.2.1
      have h1 := materializeList_fs_le "train" cls tr st
      have h2 := materializeList_fs_le "val" cls va
        (materializeList "train" cls tr st)
      have h3 := materializeList_fs_le "test" cls te
        (materializeList "val" cls va (materializeList "train" cls tr st))
      omega

theorem copySplitGo_fs_le {seed : Nat} :
    ∀ (entries : List (String × List String)) (st0 st : MatState),
      copySplitGo seed st0 entries = .ok st →
      st.fs.length ≤ st0.fs.length + totalScanned entries := by
  intro entries
  induction entries with
  | nil =>
    intro st0 st h
    simp only [copySplitGo, Except.ok.injEq] at h
    subst h
    simp [totalScanned]
  | cons p rest ih =>
    intro st0 st h
    unfold copySplitGo at h
    cases h1 : processClass seed st0 p.1 p.2 with
    | error e => rw [h1] at h; simp at h
    | ok st1 =>
      rw [h1] at h
      have hrest := ih st1 st h
      have hp := processClass_fs_le h1
      simp only [totalScanned, List.map_cons, List.sum_cons]
      unfold totalScanned at hrest
      omega

/-- Claim C1: for every class bucket the splitter processes, the three
split lists partition the bucket — their lengths sum to the bucket size,
their concatenation is a permutation of the bucket (no file dropped or
duplicated), and for a duplicate-free bucket the three lists are pairwise
disjoint — and a completed `copy_split` run copies exactly the total
number of scanned files over all classes. -/
theorem c1_split_partition_conservation :
    (∀ (seed : Nat) (files tr va te : List String),
      splitClass seed files = .ok (tr, va, te) →
        tr.length + va.length + te.length = files.length ∧
        (tr ++ va ++ te).Perm files ∧
        (files.Nodup → tr.Disjoint va ∧ tr.Disjoint te ∧ va.Disjoint te)) ∧
    (∀ (seed entropy : Nat) (entries : List (String × List String)) (st : MatState),
      copy_split seed entropy entries = .ok st →
        st.totalCopied = totalScanned entries) := by
  constructor
  · intro seed files tr va te h
    obtain ⟨-, -, -, hsum, hperm⟩ := splitClass_spec h
    refine ⟨hsum, hperm, ?_⟩
    intro hnd
    have hnd3 : (tr ++ va ++ te).Nodup := (hperm.symm).nodup hnd
    rw [List.nodup_append] at hnd3
    obtain ⟨hnd12, hndte, hdisj⟩ := hnd3
    rw [List.nodup_append] at hnd12
    obtain ⟨hndtr, hndva, htrva⟩ := hnd12
    rw [List.disjoint_append_left] at hdisj
    exact ⟨htrva, hdisj.1, hdisj.2⟩
  · intro seed entropy entries st h
    have := copySplitGo_copied entries _ st h
    simpa using this

/-- Witness for C1 at a concrete six-file class and a concrete run. -/
theorem c1_witness :
    (["d2/b.jpg", "d6/f.jpg", "d3/c.jpg", "d5/e.jpg"].length +
       ["d4/d.jpg"].length + ["d1/a.jpg"].length =
      (["d1/a.jpg", "d2/b.jpg", "d3/c.jpg", "d4/d.jpg", "d5/e.jpg", "d6/f.jpg"] :
        List String).length) ∧
    (["d2/b.jpg", "d6/f.jpg", "d3/c.jpg", "d5/e.jpg"] :
      List String).Disjoint ["d4/d.jpg"] ∧
    MatState.totalCopied
      { fs := [(⟨"train", "Forward", "b.jpg"⟩, "d2/b.jpg"),
               (⟨"train", "Forward", "f.jpg"⟩, "d6/f.jpg"),
               (⟨"train", "Forward", "c.jpg"⟩, "d3/c.jpg"),
               (⟨"train", "Forward", "e.jpg"⟩, "d5/e.jpg"),
               (⟨"val", "Forward", "d.jpg"⟩, "d4/d.jpg"),
               (⟨"test", "Forward", "a.jpg"⟩, "d1/a.jpg")],
        rng := 1250496027, totalCopied := 6 } =
      totalScanned [("Forward",
        ["d1/a.jpg", "d2/b.jpg", "d3/c.jpg", "d4/d.jpg", "d5/e.jpg", "d6/f.jpg"])] := by
  have hsplit : splitClass 42
      ["d1/a.jpg", "d2/b.jpg", "d3/c.jpg", "d4/d.jpg", "d5/e.jpg", "d6/f.jpg"] =
      .ok (["d2/b.jpg", "d6/f.jpg", "d3/c.jpg", "d5/e.jpg"],
           ["d4/d.jpg"], ["d1/a.jpg"]) := by rfl
  have h1 := c1_split_partition_conservation.1 42 _ _ _ _ hsplit
  have hrun : copy_split 42 0
      [("Forward",
        ["d1/a.jpg", "d2/b.jpg", "d3/c.jpg", "d4/d.jpg", "d5/e.jpg", "d6/f.jpg"])] =
      .ok { fs := [(⟨"train", "Forward", "b.jpg"⟩, "d2/b.jpg"),
                   (⟨"train", "Forward", "f.jpg"⟩, "d6/f.jpg"),
                   (⟨"train", "Forward", "c.jpg"⟩, "d3/c.jpg"),
                   (⟨"train", "Forward", "e.jpg"⟩, "d5/e.jpg"),
                   (⟨"val", "Forward", "d.jpg"⟩, "d4/d.jpg"),
                   (⟨"test", "Forward", "a.jpg"⟩, "d1/a.jpg")],
            rng := 1250496027, totalCopied := 6 } := by rfl
  have h2 := c1_split_partition_conservation.2 42 0 _ _ hrun
  exact ⟨h1.1, ((h1.2.2 (by decide)).1), h2⟩

/-- Claim C2, counterexample: balancer deletions are not controlled by
the pipeline seed.  `fix_invalid_train.py` never calls `random.seed`, so
its `random.sample` draws from whatever state the interpreter started
with; two runs on the identical directory listing (and identical —
irrelevant — pipeline seed) can delete different files. -/
theorem c2_counterexample :
    fix_invalid_train 0 2 ["a", "b", "c", "d"] ≠
      fix_invalid_train 2 2 ["a", "b", "c", "d"] := by decide

/-- Claim C2, amended: the seed does determine the prepare-and-split
stage — `copy_split` begins with `random.seed(RANDOM_SEED)`, so its
output is independent of the interpreter's prior RNG state and two runs
with identical seed and identical entries produce identical results —
but balancer sampling is outside the seed's control. -/
theorem c2_amended_split_deterministic :
    ∀ (seed e1 e2 : Nat) (entries : List (String × List String)),
      copy_split seed e1 entries = copy_split seed e2 entries := by
  intro seed e1 e2 entries
  rfl

/-- Claim C5, counterexample: a ratio configuration violating the
sum-to-one invariant (0.5 + 0.1 + 0.1 = 0.7) still passes the startup
pre-flight check — `check_source_directory` only inspects the source
directory and no `InvalidConfiguration` check exists anywhere. -/
theorem c5_counterexample :
    startup_gate (1/2, 1/10, 1/10) (some [("like", ["a.jpg"])]) = true ∧
      ¬((1/2 : ℚ) + 1/10 + 1/10 = 1) := by
  constructor
  · rfl
  · norm_num

/-- Claim C5, amended: the configured ratios are fixed module constants
(0.8, 0.1, 0.1) which are non-negative and sum to one, but no
configuration-time validation exists: the startup gate is entirely
independent of the ratio configuration, so a violating configuration is
accepted rather than rejected with `InvalidConfiguration`. -/
theorem c5_amended_no_ratio_validation :
    ( TRAIN_RATIO + VAL_RATIO + TEST_RATIO = 1 ∧
      0 ≤ TRAIN_RATIO ∧ 0 ≤ VAL_RATIO ∧ 0 ≤ TEST_RATIO) ∧
    ∀ (r1 r2 : ℚ × ℚ × ℚ) (raw : Option Listing),
      startup_gate r1 raw = startup_gate r2 raw := by
  refine ⟨⟨?_, ?_, ?_, ?_⟩, ?_⟩
  · norm_num [ TRAIN_RATIO, VAL_RATIO, TEST_RATIO]
  · norm_num [ TRAIN_RATIO]
  · norm_num [ VAL_RATIO]
  · norm_num [ TEST_RATIO]
  · intro r1 r2 raw
    rfl

/-- Claim C9: the two-stage split is not total on non-empty lists — a
one-file class makes the first `train_test_split` raise (its train part
`floor(0.8 * 1) = 0` would be empty), and a five-file class leaves a
one-file remainder that the second `train_test_split` cannot divide
between val and test. -/
theorem c9_split_not_total :
    splitClass RANDOM_SEED ["d/a.jpg"] =
      .error "ValueError: the resulting train set will be empty" ∧
    splitClass RANDOM_SEED ["d/a.jpg", "d/b.jpg", "d/c.jpg", "d/d.jpg", "d/e.jpg"] =
      .error "ValueError: the resulting train set will be empty" := by
  exact ⟨rfl, rfl⟩

theorem addEntry_ne_nil (acc : List (String × List String)) (cls : String)
    (fs : List String) : addEntry acc cls fs ≠ [] := by
  cases acc with
  | nil => simp [addEntry]
  | cons p rest =>
    obtain ⟨c, l⟩ := p
    unfold addEntry
    split <;> simp

theorem collect_foldl_ne_nil (rawRoot : String) :
    ∀ (dirs : Listing) (acc : List (String × List String)),
      acc ≠ [] →
      dirs.foldl
        (fun entries p =>
          addEntry entries (mapLabel p.1)
            ((p.2.filter isImage).map fun f => joinPath (joinPath rawRoot p.1) f))
        acc ≠ [] := by
  intro dirs
  induction dirs with
  | nil => intro acc h; simpa using h
  | cons d rest ih =>
    intro acc h
    simp only [List.foldl_cons]
    exact ih _ (addEntry_ne_nil _ _ _)

/-- Claim C6, counterexample: a raw root whose only subdirectory `like`
contains zero images yields the non-empty mapping
`{"Forward": []}`, so the `if not entries` gate in `__main__` does not
fire; `copy_split` then runs, skips the empty class and completes
normally having copied zero files — no `EmptyCorpus` failure occurs
before (or during) materialization. -/
theorem c6_counterexample :
    collect_images_per_class "raw" (some [("like", [])]) = [("Forward", [])] ∧
    collect_images_per_class "raw" (some [("like", [])]) ≠ [] ∧
    totalScanned (collect_images_per_class "raw" (some [("like", [])])) = 0 ∧
    copy_split RANDOM_SEED 0 (collect_images_per_class "raw" (some [("like", [])])) =
      .ok { fs := [], rng := pySeed RANDOM_SEED, totalCopied := 0 } := by
  exact ⟨rfl, by decide, rfl, rfl⟩

/-- Claim C6, amended: the `__main__` gate aborts exactly when the scan
returns an empty mapping, which happens only for a missing raw root or a
raw root without subdirectories; label subdirectories with zero images
still create (empty) buckets, so the run proceeds and reports success
with zero files. -/
theorem c6_amended_gate :
    collect_images_per_class "raw" none = [] ∧
    (∀ (rawRoot : String) (dirs : Listing),
      (collect_images_per_class rawRoot (some dirs) = [] ↔ dirs = [])) := by
  refine ⟨rfl, ?_⟩
  intro rawRoot dirs
  constructor
  · intro h
    cases dirs with
    | nil => rfl
    | cons d rest =>
      exfalso
      refine collect_foldl_ne_nil rawRoot rest
        (addEntry [] (mapLabel d.1)
          ((d.2.filter isImage).map fun f => joinPath (joinPath rawRoot d.1) f))
        (addEntry_ne_nil _ _ _) ?_
      simpa [collect_images_per_class, List.foldl_cons] using h
  · intro h
    subst h
    rfl

theorem fsLookup_fsInsert (fs : FS) (d : Dest) (v : String) (e : Dest) :
    fsLookup (fsInsert fs d v) e = if e = d then some v else fsLookup fs e := by
  induction fs with
  | nil =>
    by_cases h : e = d
    · simp [fsInsert, fsLookup, h]
    · simp [fsInsert, fsLookup, h, Ne.symm h]
  | cons p rest ih =>
    obtain ⟨d', v'⟩ := p
    by_cases h1 : d' = d
    · subst h1
      by_cases h2 : e = d'
      · simp [fsInsert, fsLookup, h2]
      · simp [fsInsert, fsLookup, h2, Ne.symm h2]
    · by_cases h2 : d' = e
      · subst h2
        simp [fsInsert, fsLookup, h1, fun hh : d' = d => h1 hh]
      · simp [fsInsert, fsLookup, h1, h2, ih]

theorem materializeFile_hit {split cls : String} {st : MatState} {src : String}
    (h : fsMem st.fs ⟨split, cls, basename src⟩ = true) :
    materializeFile split cls st src =
      { fs := fsInsert st.fs (suffixedDest split cls (basename src) st.rng) src
        rng := lcg st.rng
        totalCopied := st.totalCopied + 1 } := by
  unfold materializeFile
  dsimp only
  rw [if_pos h]

theorem materializeFile_miss {split cls : String} {st : MatState} {src : String}
    (h : fsMem st.fs ⟨split, cls, basename src⟩ = false) :
    materializeFile split cls st src =
      { fs := fsInsert st.fs ⟨split, cls, basename src⟩ src
        rng := st.rng
        totalCopied := st.totalCopied + 1 } := by
  unfold materializeFile
  dsimp only
  rw [if_neg (by simp [h])]

/-- Claim C3, amended: on a destination collision the file is re-aimed
at `{stem}_{suffix}{ext}` with the suffix drawn from the seeded RNG; as
long as that suffixed destination is still free, materializing two
distinct sources that share a basename yields two distinct files with
neither overwritten.  (When the suffixed destination is occupied the
code overwrites it silently — see the counterexample.) -/
theorem c3_collision_rename_no_overwrite
    (st0 : MatState) (split cls s1 s2 : String)
    (hb : basename s2 = basename s1)
    (h0 : fsMem st0.fs ⟨split, cls, basename s1⟩ = false)
    (h1 : fsMem (materializeFile split cls st0 s1).fs
      (suffixedDest split cls (basename s2)
        (materializeFile split cls st0 s1).rng) = false) :
    fsLookup (materializeFile split cls (materializeFile split cls st0 s1) s2).fs
        ⟨split, cls, basename s1⟩ = some s1 ∧
    fsLookup (materializeFile split cls (materializeFile split cls st0 s1) s2).fs
        (suffixedDest split cls (basename s2)
          (materializeFile split cls st0 s1).rng) = some s2 ∧
    suffixedDest split cls (basename s2)
        (materializeFile split cls st0 s1).rng ≠ ⟨split, cls, basename s1⟩ := by
  have hst1 := materializeFile_miss h0
  have hmem1 : fsMem (materializeFile split cls st0 s1).fs
      ⟨split, cls, basename s2⟩ = true := by
    rw [hb, hst1]
    unfold fsMem
    rw [fsLookup_fsInsert]
    simp
  have hne : suffixedDest split cls (basename s2)
      (materializeFile split cls st0 s1).rng ≠ ⟨split, cls, basename s1⟩ := by
    intro hcontra
    rw [hcontra] at h1
    rw [hb] at hmem1
    rw [h1] at hmem1
    exact Bool.false_ne_true hmem1
  have hst2 := materializeFile_hit hmem1
  refine ⟨?_, ?_, hne⟩
  · rw [hst2]
    dsimp only
    rw [fsLookup_fsInsert, if_neg (fun hh => hne hh.symm), hst1]
    dsimp only
    rw [fsLookup_fsInsert, if_pos rfl]
  · rw [hst2]
    dsimp only
    rw [fsLookup_fsInsert, if_pos rfl]

/-- Witness for C3 at two concrete sources sharing basename `a.jpg`
copied into an initially empty `train/Forward` destination. -/
theorem c3_witness :
    fsLookup (materializeFile "train" "Forward"
        (materializeFile "train" "Forward"
          { fs := [], rng := pySeed RANDOM_SEED, totalCopied := 0 } "d1/a.jpg")
        "d2/a.jpg").fs ⟨"train", "Forward", "a.jpg"⟩ = some "d1/a.jpg" ∧
    fsLookup (materializeFile "train" "Forward"
        (materializeFile "train" "Forward"
          { fs := [], rng := pySeed RANDOM_SEED, totalCopied := 0 } "d1/a.jpg")
        "d2/a.jpg").fs ⟨"train", "Forward", "a_96027.jpg"⟩ = some "d2/a.jpg" := by
  have h := c3_collision_rename_no_overwrite
    { fs := [], rng := pySeed RANDOM_SEED, totalCopied := 0 }
    "train" "Forward" "d1/a.jpg" "d2/a.jpg" (by rfl) (by rfl) (by rfl)
  refine ⟨h.1, ?_⟩
  have h2 := h.2.1
  exact h2

/-- Claim C3, counterexample: when the suffixed destination already
exists the code overwrites it silently instead of surfacing a failure —
here `a.jpg` collides, the drawn suffix is 96027, and the pre-existing
file at `a_96027.jpg` (copied from `d2/a_96027.jpg`) is replaced by
`d3/a.jpg`; the copy "succeeds", the file count does not grow, and no
error path exists in `materializeFile` at all. -/
theorem c3_counterexample :
    fsLookup (materializeFile "train" "Forward"
        { fs := [(⟨"train", "Forward", "a.jpg"⟩, "d1/a.jpg"),
                 (⟨"train", "Forward", "a_96027.jpg"⟩, "d2/a_96027.jpg")],
          rng := pySeed RANDOM_SEED, totalCopied := 2 } "d3/a.jpg").fs
        ⟨"train", "Forward", "a_96027.jpg"⟩ = some "d3/a.jpg" ∧
    fsLookup [(⟨"train", "Forward", "a.jpg"⟩, "d1/a.jpg"),
              (⟨"train", "Forward", "a_96027.jpg"⟩, "d2/a_96027.jpg")]
        (⟨"train", "Forward", "a_96027.jpg"⟩ : Dest) = some "d2/a_96027.jpg" ∧
    (materializeFile "train" "Forward"
        { fs := [(⟨"train", "Forward", "a.jpg"⟩, "d1/a.jpg"),
                 (⟨"train", "Forward", "a_96027.jpg"⟩, "d2/a_96027.jpg")],
          rng := pySeed RANDOM_SEED, totalCopied := 2 } "d3/a.jpg").fs.length = 2 ∧
    (materializeFile "train" "Forward"
        { fs := [(⟨"train", "Forward", "a.jpg"⟩, "d1/a.jpg"),
                 (⟨"train", "Forward", "a_96027.jpg"⟩, "d2/a_96027.jpg")],
          rng := pySeed RANDOM_SEED, totalCopied := 2 } "d3/a.jpg").totalCopied = 3 := by
  exact ⟨rfl, rfl, rfl, rfl⟩

/-- Claim C4, amended: a completed `copy_split` run always reports
`total_copied` equal to the planned total (the loop increments the
counter once per file and nothing can fail a copy), while the number of
files actually on disk is only bounded above by it — a silent collision
overwrite makes it strictly smaller — and no comparison between the two
is ever made: the run still completes normally.  No `PartialTransfer`
error exists in the code. -/
theorem c4_no_mismatch_check (seed entropy : Nat)
    (entries : List (String × List String)) (st : MatState)
    (h : copy_split seed entropy entries = .ok st) :
    st.totalCopied = totalScanned entries ∧ st.fs.length ≤ st.totalCopied := by
  constructor
  · simpa using copySplitGo_copied entries _ st h
  · have h1 := copySplitGo_fs_le entries _ st h
    have h2 := copySplitGo_copied entries _ st h
    simp at h1 h2
    omega

/-- Witness for C4 at a concrete one-class run. -/
theorem c4_witness :
    MatState.totalCopied
        { fs := [(⟨"train", "Forward", "b.jpg"⟩, "d2/b.jpg"),
                 (⟨"train", "Forward", "f.jpg"⟩, "d6/f.jpg"),
                 (⟨"train", "Forward", "c.jpg"⟩, "d3/c.jpg"),
                 (⟨"train", "Forward", "e.jpg"⟩, "d5/e.jpg"),
                 (⟨"val", "Forward", "d.jpg"⟩, "d4/d.jpg"),
                 (⟨"test", "Forward", "a.jpg"⟩, "d1/a.jpg")],
          rng := 1250496027, totalCopied := 6 } =
      totalScanned [("Forward",
        ["d1/a.jpg", "d2/b.jpg", "d3/c.jpg", "d4/d.jpg", "d5/e.jpg", "d6/f.jpg"])] ∧
    List.length (MatState.fs
        { fs := [(⟨"train", "Forward", "b.jpg"⟩, "d2/b.jpg"),
                 (⟨"train", "Forward", "f.jpg"⟩, "d6/f.jpg"),
                 (⟨"train", "Forward", "c.jpg"⟩, "d3/c.jpg"),
                 (⟨"train", "Forward", "e.jpg"⟩, "d5/e.jpg"),
                 (⟨"val", "Forward", "d.jpg"⟩, "d4/d.jpg"),
                 (⟨"test", "Forward", "a.jpg"⟩, "d1/a.jpg")],
          rng := 1250496027, totalCopied := 6 }) ≤ 6 :=
  c4_no_mismatch_check 42 0
    [("Forward", ["d1/a.jpg", "d2/b.jpg", "d3/c.jpg", "d4/d.jpg", "d5/e.jpg", "d6/f.jpg"])]
    _ (by rfl)

/-- Claim C4, counterexample: a run over six scanned files that ends in
a silent collision overwrite — the class `Invalid` holds three files
whose basename is `x.jpg` (one already carrying the name `x_96027.jpg`
that the seeded RNG will draw): `copy_split` completes normally
reporting 6/6 processed, while only 5 files exist on disk; the 6-vs-5
mismatch is not surfaced as any error, `PartialTransfer` or otherwise. -/
theorem c4_counterexample :
    copy_split 42 0
      [("Invalid", ["d1/r.jpg", "d2/x_96027.jpg", "d3/x.jpg",
                    "d4/q.jpg", "d5/p.jpg", "d6/x.jpg"])] =
      .ok { fs := [(⟨"train", "Invalid", "x_96027.jpg"⟩, "d3/x.jpg"),
                   (⟨"train", "Invalid", "x.jpg"⟩, "d6/x.jpg"),
                   (⟨"train", "Invalid", "p.jpg"⟩, "d5/p.jpg"),
                   (⟨"val", "Invalid", "q.jpg"⟩, "d4/q.jpg"),
                   (⟨"test", "Invalid", "r.jpg"⟩, "d1/r.jpg")],
            rng := 1116302264, totalCopied := 6 } ∧
    totalScanned [("Invalid", ["d1/r.jpg", "d2/x_96027.jpg", "d3/x.jpg",
                               "d4/q.jpg", "d5/p.jpg", "d6/x.jpg"])] = 6 ∧
    verify_output [(⟨"train", "Invalid", "x_96027.jpg"⟩, "d3/x.jpg"),
                   (⟨"train", "Invalid", "x.jpg"⟩, "d6/x.jpg"),
                   (⟨"train", "Invalid", "p.jpg"⟩, "d5/p.jpg"),
                   (⟨"val", "Invalid", "q.jpg"⟩, "d4/q.jpg"),
                   (⟨"test", "Invalid", "r.jpg"⟩, "d1/r.jpg")] = 5 := by
  exact ⟨rfl, rfl, rfl⟩

theorem floor_train_ratio (n : ℕ) : ⌊ TRAIN_RATIO * (n : ℚ)⌋₊ = nTrainOf n := by
  have hq : TRAIN_RATIO * (n : ℚ) = ((4 * n : ℕ) : ℚ) / ((5 : ℕ) : ℚ) := by
    unfold TRAIN_RATIO
    push_cast
    ring
  rw [hq, Nat.floor_div_nat, Nat.floor_natCast]
  rfl

theorem nTrainOf_bounds (n : ℕ) :
    ((nTrainOf n : ℕ) : ℚ) ≤ TRAIN_RATIO * (n : ℚ) ∧
    TRAIN_RATIO * (n : ℚ) - 1 < ((nTrainOf n : ℕ) : ℚ) := by
  have hq : TRAIN_RATIO * (n : ℚ) = ((4 * n : ℕ) : ℚ) / 5 := by
    unfold TRAIN_RATIO
    push_cast
    ring
  have hdm := Nat.div_add_mod (4 * n) 5
  have hmod : (4 * n) % 5 < 5 := Nat.mod_lt _ (by norm_num)
  constructor
  · rw [hq, le_div_iff (by norm_num : (0:ℚ) < 5)]
    have : (nTrainOf n) * 5 ≤ 4 * n := by
      unfold nTrainOf
      omega
    exact_mod_cast this
  · rw [hq, sub_lt_iff_lt_add, div_lt_iff (by norm_num : (0:ℚ) < 5)]
    have : 4 * n < (nTrainOf n + 1) * 5 := by
      unfold nTrainOf
      omega
    calc ((4 * n : ℕ) : ℚ) < ((nTrainOf n + 1) * 5 : ℕ) := by exact_mod_cast this
      _ = (((nTrainOf n) : ℚ) + 1) * 5 := by push_cast; ring

theorem ceil_restricted_ratio (m : ℕ) :
    ⌈( TEST_RATIO / ( TEST_RATIO + VAL_RATIO)) * (m : ℚ)⌉₊ = nTestValOf m := by
  have hr : TEST_RATIO / ( TEST_RATIO + VAL_RATIO) = (1 : ℚ) / 2 := by
    norm_num [ TEST_RATIO, VAL_RATIO]
  rw [hr]
  cases m with
  | zero => simp [nTestValOf]
  | succ k =>
    set m := k + 1
    have hk0 : nTestValOf m ≠ 0 := by unfold nTestValOf; omega
    rw [Nat.ceil_eq_iff hk0]
    have h1 : 2 * nTestValOf m ≤ m + 1 := by unfold nTestValOf; omega
    have h2 : m ≤ 2 * nTestValOf m := by unfold nTestValOf; omega
    have h3 : 2 * (nTestValOf m - 1) < m := by unfold nTestValOf at h1 h2 ⊢; omega
    constructor
    · have heq : (1 : ℚ) / 2 * m = (m : ℚ) / 2 := by ring
      rw [heq, lt_div_iff (by norm_num : (0:ℚ) < 2)]
      have : (nTestValOf m - 1) * 2 < m := by omega
      exact_mod_cast this
    · have heq : (1 : ℚ) / 2 * m = (m : ℚ) / 2 := by ring
      rw [heq, div_le_iff (by norm_num : (0:ℚ) < 2)]
      have : m ≤ (nTestValOf m) * 2 := by omega
      exact_mod_cast this

/-- Claim C7: for a class of at least 100 files the split succeeds with
`train_count = floor( TRAIN_RATIO * n)` — within one unit of `0.8 * n` —
and the remaining `n - train_count` files are divided between val and
test with the test share being the ceiling of the val:test ratio
restricted to the remaining fraction (here `1/2` of the remainder). -/
theorem c7_ratio_adherence (seed : Nat) (files : List String)
    (h : 100 ≤ files.length) :
    ∃ tr va te, splitClass seed files = .ok (tr, va, te) ∧
      tr.length = ⌊ TRAIN_RATIO * (files.length : ℚ)⌋₊ ∧
      ((tr.length : ℕ) : ℚ) ≤ TRAIN_RATIO * (files.length : ℚ) ∧
      TRAIN_RATIO * (files.length : ℚ) - 1 < ((tr.length : ℕ) : ℚ) ∧
      va.length + te.length = files.length - tr.length ∧
      te.length = ⌈( TEST_RATIO / ( TEST_RATIO + VAL_RATIO)) *
        ((files.length - tr.length : ℕ) : ℚ)⌉₊ := by
  obtain ⟨tr, va, te, hok⟩ := @splitClass_isOk seed files (by omega)
  obtain ⟨htr, hte, hvt, hsum, -⟩ := splitClass_spec hok
  refine ⟨tr, va, te, hok, ?_, ?_, ?_, ?_, ?_⟩
  · rw [floor_train_ratio]
    exact htr
  · rw [htr]
    exact (nTrainOf_bounds files.length).1
  · rw [htr]
    exact (nTrainOf_bounds files.length).2
  · rw [htr]
    exact hvt
  · rw [htr, ceil_restricted_ratio]
    exact hte

/-- Witness for C7: a concrete class of exactly 100 files splits
successfully. -/
theorem c7_witness :
    ∃ tr va te,
      splitClass RANDOM_SEED
        ((List.range 100).map fun i => "raw/like/f" ++ toString i ++ ".jpg") =
        .ok (tr, va, te) ∧
      tr.length = ⌊ TRAIN_RATIO *
        ((((List.range 100).map fun i => "raw/like/f" ++ toString i ++ ".jpg").length : ℕ) : ℚ)⌋₊ := by
  obtain ⟨tr, va, te, hok, hfloor, -⟩ :=
    c7_ratio_adherence RANDOM_SEED
      ((List.range 100).map fun i => "raw/like/f" ++ toString i ++ ".jpg")
      (by simp)
  exact ⟨tr, va, te, hok, hfloor⟩

theorem filter_partition_length (l : List String) (p : String → Bool) :
    (l.filter p).length + (l.filter fun a => !(p a)).length = l.length := by
  induction l with
  | nil => simp
  | cons a t ih =>
    cases h : p a <;> simp [List.filter_cons, h] <;> omega

theorem length_filter_not_mem {l del : List String} (hl : l.Nodup) (hd : del.Nodup)
    (hsub : ∀ x ∈ del, x ∈ l) :
    (l.filter fun f => !(decide (f ∈ del))).length = l.length - del.length := by
  have hperm : (l.filter fun f => decide (f ∈ del)).Perm del := by
    refine (List.perm_ext_iff_of_nodup (hl.filter _) hd).mpr ?_
    intro a
    simp only [List.mem_filter, decide_eq_true_eq]
    exact ⟨fun h => h.2, fun h => ⟨hsub a h, h⟩⟩
  have hpart := filter_partition_length l fun f => decide (f ∈ del)
  have hlen := hperm.length_eq
  omega

/-- Claim C8: the balancer is a no-op when the directory holds at most
`max_images` files; otherwise it deletes exactly `count - max_images`
files, leaving exactly `max_images` files that form a sub-sequence (in
particular a subset) of the originals; and running it a second time with
the same cap — under any RNG state — changes nothing. -/
theorem c8_balancer_cap_idempotent (s s2 K : Nat) (files : List String)
    (hnd : files.Nodup) :
    (files.length ≤ K → fix_invalid_train s K files = files) ∧
    (K < files.length →
      (fix_invalid_train s K files).length = K ∧
      (fix_invalid_train s K files).Sublist files) ∧
    fix_invalid_train s2 K (fix_invalid_train s K files) =
      fix_invalid_train s K files := by
  have hnoop : ∀ (sd : Nat) (l : List String), l.length ≤ K →
      fix_invalid_train sd K l = l := by
    intro sd l hle
    unfold fix_invalid_train
    rw [if_neg (by omega)]
  have hover : K < files.length →
      (fix_invalid_train s K files).length = K ∧
      (fix_invalid_train s K files).Sublist files := by
    intro hlt
    have hperm := shuffle_perm s files
    have hshnd : (shuffle s files).Nodup := (hperm.symm).nodup hnd
    have hdnd : (random_sample s files (files.length - K)).Nodup :=
      ((List.take_sublist _ _).nodup) hshnd
    have hsub : ∀ x ∈ random_sample s files (files.length - K), x ∈ files := by
      intro x hx
      exact hperm.mem_iff.mp (List.mem_of_mem_take hx)
    have hdlen : (random_sample s files (files.length - K)).length =
        files.length - K := by
      simp only [random_sample, List.length_take, shuffle_length]
      omega
    constructor
    · unfold fix_invalid_train
      rw [if_pos hlt]
      rw [length_filter_not_mem hnd hdnd hsub, hdlen]
      omega
    · unfold fix_invalid_train
      rw [if_pos hlt]
      exact List.filter_sublist _
  refine ⟨hnoop s files, hover, ?_⟩
  by_cases hlt : K < files.length
  · exact hnoop s2 _ (by rw [(hover hlt).1])
  · rw [hnoop s files (by omega)]
    exact hnoop s2 files (by omega)

/-- Witness for C8 at a concrete three-file directory with cap 2. -/
theorem c8_witness :
    (fix_invalid_train 0 2 ["a.jpg", "b.jpg", "c.jpg"]).length = 2 ∧
    (fix_invalid_train 0 2 ["a.jpg", "b.jpg", "c.jpg"]).Sublist
      ["a.jpg", "b.jpg", "c.jpg"] ∧
    fix_invalid_train 1 2 (fix_invalid_train 0 2 ["a.jpg", "b.jpg", "c.jpg"]) =
      fix_invalid_train 0 2 ["a.jpg", "b.jpg", "c.jpg"] := by
  have h := c8_balancer_cap_idempotent 0 1 2 ["a.jpg", "b.jpg", "c.jpg"] (by decide)
  have h2 := h.2.1 (by decide)
  exact ⟨h2.1, h2.2, h.2.2⟩

theorem lookup_mem_values :
    ∀ (l : List (String × String)) (k v : String),
      l.lookup k = some v → v ∈ l.map Prod.snd := by
  intro l
  induction l with
  | nil => intro k v h; simp [List.lookup] at h
  | cons p rest ih =>
    intro k v h
    obtain ⟨k', v'⟩ := p
    simp only [List.lookup] at h
    cases hbe : (k == k') with
    | true =>
      rw [hbe] at h
      have hv : v' = v := by
        change some v' = some v at h
        injection h
      subst hv
      simp
    | false =>
      rw [hbe] at h
      have hr : List.lookup k rest = some v := h
      simp only [List.map_cons, List.mem_cons]
      exact Or.inr (ih k v hr)

theorem mapLabel_mem_targets (lbl : String) : mapLabel lbl ∈ TARGET_CLASSES := by
  unfold mapLabel
  cases h : map_to_command.lookup (strToLower lbl) with
  | none => simp [TARGET_CLASSES]
  | some v =>
    have hv := lookup_mem_values _ _ _ h
    simp only [map_to_command, List.map_cons, List.map_nil] at hv
    simp only [Option.getD_some]
    fin_cases hv <;> simp [TARGET_CLASSES]

theorem mem_ensure_dirs (s c : String) :
    (s, c) ∈ ensure_dirs ↔ s ∈ SPLITS ∧ c ∈ TARGET_CLASSES := by
  simp only [ensure_dirs, List.mem_flatMap, List.mem_map, Prod.mk.injEq]
  constructor
  · rintro ⟨s', hs', c', hc', hsc, hcc⟩
    subst hsc
    subst hcc
    exact ⟨hs', hc'⟩
  · rintro ⟨hs, hc⟩
    exact ⟨s, hs, c, hc, rfl, rfl⟩

theorem addEntry_keys {acc : List (String × List String)} {cls : String}
    {fs : List String} {q : String × List String}
    (h : q ∈ addEntry acc cls fs) : q.1 = cls ∨ ∃ p ∈ acc, q.1 = p.1 := by
  induction acc with
  | nil =>
    simp only [addEntry, List.mem_singleton] at h
    subst h
    exact Or.inl rfl
  | cons p rest ih =>
    obtain ⟨c, l⟩ := p
    unfold addEntry at h
    by_cases hc : c = cls
    · rw [if_pos hc] at h
      rcases List.mem_cons.mp h with h1 | h1
      · subst h1
        exact Or.inl hc
      · exact Or.inr ⟨_, List.mem_cons_of_mem _ h1, rfl⟩
    · rw [if_neg hc] at h
      rcases List.mem_cons.mp h with h1 | h1
      · subst h1
        exact Or.inr ⟨(c, l), List.mem_cons_self _ _, rfl⟩
      · rcases ih h1 with h2 | ⟨p', hp', hq⟩
        · exact Or.inl h2
        · exact Or.inr ⟨p', List.mem_cons_of_mem _ hp', hq⟩

theorem collect_keys_mem_targets (rawRoot : String) :
    ∀ (dirs : Listing) (p : String × List String),
      p ∈ collect_images_per_class rawRoot (some dirs) → p.1 ∈ TARGET_CLASSES := by
  have main : ∀ (dirs : Listing) (acc : List (String × List String)),
      (∀ q ∈ acc, q.1 ∈ TARGET_CLASSES) →
      ∀ p ∈ dirs.foldl
        (fun entries d =>
          addEntry entries (mapLabel d.1)
            ((d.2.filter isImage).map fun f => joinPath (joinPath rawRoot d.1) f))
        acc, p.1 ∈ TARGET_CLASSES := by
    intro dirs
    induction dirs with
    | nil => intro acc hacc p hp; exact hacc p hp
    | cons d rest ih =>
      intro acc hacc p hp
      simp only [List.foldl_cons] at hp
      refine ih _ ?_ p hp
      intro q hq
      rcases addEntry_keys hq with h1 | ⟨p', hp', hq1⟩
      · rw [h1]
        exact mapLabel_mem_targets d.1
      · rw [hq1]
        exact hacc p' hp'
  intro dirs p hp
  exact main dirs [] (by simp) p hp

theorem fsInsert_mem {fs : FS} {d : Dest} {v : String} {e : Dest} {w : String}
    (h : (e, w) ∈ fsInsert fs d v) : e = d ∨ (e, w) ∈ fs := by
  induction fs with
  | nil =>
    simp only [fsInsert, List.mem_singleton, Prod.mk.injEq] at h
    exact Or.inl h.1
  | cons p rest ih =>
    obtain ⟨d', v'⟩ := p
    unfold fsInsert at h
    by_cases hd : d' = d
    · rw [if_pos hd] at h
      rcases List.mem_cons.mp h with h1 | h1
      · simp only [Prod.mk.injEq] at h1
        exact Or.inl h1.1
      · exact Or.inr (List.mem_cons_of_mem _ h1)
    · rw [if_neg hd] at h
      rcases List.mem_cons.mp h with h1 | h1
      · exact Or.inr (List.mem_cons.mpr (Or.inl h1))
      · rcases ih h1 with h2 | h2
        · exact Or.inl h2
        · exact Or.inr (List.mem_cons_of_mem _ h2)

theorem materializeFile_fs_mem {split cls : String} {st : MatState} {src : String}
    {e : Dest} {w : String}
    (h : (e, w) ∈ (materializeFile split cls st src).fs) :
    (e.split = split ∧ e.cls = cls) ∨ (e, w) ∈ st.fs := by
  unfold materializeFile at h
  dsimp only at h
  split at h
  · rcases fsInsert_mem h with h1 | h1
    · subst h1
      exact Or.inl ⟨rfl, rfl⟩
    · exact Or.inr h1
  · rcases fsInsert_mem h with h1 | h1
    · subst h1
      exact Or.inl ⟨rfl, rfl⟩
    · exact Or.inr h1

theorem materializeList_fs_mem {split cls : String} {files : List String}
    {st : MatState} {e : Dest} {w : String}
    (h : (e, w) ∈ (materializeList split cls files st).fs) :
    (e.split = split ∧ e.cls = cls) ∨ (e, w) ∈ st.fs := by
  induction files generalizing st with
  | nil => exact Or.inr h
  | cons f rest ih =>
    unfold materializeList at h ih
    simp only [List.foldl_cons] at h
    rcases ih h with h1 | h1
    · exact Or.inl h1
    · exact materializeFile_fs_mem h1

theorem processClass_fs_mem {seed : Nat} {st st' : MatState} {cls : String}
    {files : List String} {e : Dest} {w : String}
    (h : processClass seed st cls files = .ok st')
    (hm : (e, w) ∈ st'.fs) :
    (e.split ∈ SPLITS ∧ e.cls = cls) ∨ (e, w) ∈ st.fs := by
  unfold processClass at h
  by_cases hn : files.length = 0
  · rw [if_pos hn] at h
    simp only [Except.ok.injEq] at h
    subst h
    exact Or.inr hm
  · rw [if_neg hn] at h
    cases hc : splitClass seed files with
    | error e2 => rw [hc] at h; simp at h
    | ok p =>
      obtain ⟨tr, va, te⟩ := p
      rw [hc] at h
      simp only [Except.ok.injEq] at h
      subst h
      rcases materializeList_fs_mem hm with h1 | h1
      · exact Or.inl ⟨by rw [h1.1]; decide, h1.2⟩
      rcases materializeList_fs_mem h1 with h2 | h2
      · exact Or.inl ⟨by rw [h2.1]; decide, h2.2⟩
      rcases materializeList_fs_mem h2 with h3 | h3
      · exact Or.inl ⟨by rw [h3.1]; decide, h3.2⟩
      · exact Or.inr h3

theorem copySplitGo_fs_mem {seed : Nat} :
    ∀ (entries : List (String × List String)) (st0 st : MatState)
      (hcls : ∀ p ∈ entries, p.1 ∈ TARGET_CLASSES),
      copySplitGo seed st0 entries = .ok st →
      ∀ e w, (e, w) ∈ st.fs →
        (e.split ∈ SPLITS ∧ e.cls ∈ TARGET_CLASSES) ∨ (e, w) ∈ st0.fs := by
  intro entries
  induction entries with
  | nil =>
    intro st0 st hcls h e w hm
    simp only [copySplitGo, Except.ok.injEq] at h
    subst h
    exact Or.inr hm
  | cons p rest ih =>
    intro st0 st hcls h e w hm
    unfold copySplitGo at h
    cases h1 : processClass seed st0 p.1 p.2 with
    | error e2 => rw [h1] at h; simp at h
    | ok st1 =>
      rw [h1] at h
      rcases ih st1 st (fun q hq => hcls q (List.mem_cons_of_mem _ hq)) h e w hm with
        h2 | h2
      · exact Or.inl h2
      · rcases processClass_fs_mem h1 h2 with h3 | h3
        · exact Or.inl ⟨h3.1, by rw [h3.2]; exact hcls p (List.mem_cons_self _ _)⟩
        · exact Or.inr h3

/-- Claim C10: every raw label maps into the fixed six-class taxonomy
(unknown labels fall back to `Invalid`), the `(split, class)` directory
for every mapped label and every split is pre-created by `ensure_dirs`,
every bucket produced by the scanner is keyed by a taxonomy class, and
every file a completed run materializes lands in a `(split, class)`
directory that `ensure_dirs` created — the output tree never gains a
class directory outside the taxonomy. -/
theorem c10_taxonomy_closed :
    (∀ lbl : String, mapLabel lbl ∈ TARGET_CLASSES) ∧
    (∀ (lbl split : String), split ∈ SPLITS → (split, mapLabel lbl) ∈ ensure_dirs) ∧
    (∀ (rawRoot : String) (dirs : Listing) (p : String × List String),
      p ∈ collect_images_per_class rawRoot (some dirs) → p.1 ∈ TARGET_CLASSES) ∧
    (∀ (seed entropy : Nat) (rawRoot : String) (dirs : Listing) (st : MatState),
      copy_split seed entropy (collect_images_per_class rawRoot (some dirs)) = .ok st →
      ∀ (e : Dest) (w : String), (e, w) ∈ st.fs →
        (e.split, e.cls) ∈ ensure_dirs) := by
  refine ⟨mapLabel_mem_targets, ?_, ?_, ?_⟩
  · intro lbl split hs
    exact (mem_ensure_dirs split (mapLabel lbl)).mpr ⟨hs, mapLabel_mem_targets lbl⟩
  · intro rawRoot dirs p hp
    exact collect_keys_mem_targets rawRoot dirs p hp
  · intro seed entropy rawRoot dirs st h e w hm
    rcases copySplitGo_fs_mem (collect_images_per_class rawRoot (some dirs)) _ st
      (fun p hp => collect_keys_mem_targets rawRoot dirs p hp) h e w hm with h1 | h1
    · exact (mem_ensure_dirs e.split e.cls).mpr h1
    · simp at h1

/-- Witness for C10 at the label `like`, the split `train`, a concrete
scan and a concrete completed run. -/
theorem c10_witness :
    mapLabel "like" ∈ TARGET_CLASSES ∧
    ("train", mapLabel "zzz") ∈ ensure_dirs ∧
    (("train", "Forward") : String × String) ∈ ensure_dirs := by
  refine ⟨c10_taxonomy_closed.1 "like", c10_taxonomy_closed.2.1 "zzz" "train" (by decide), ?_⟩
  have h := c10_taxonomy_closed.2.2.2 42 0 "raw"
    [("like", ["a.jpg", "b.jpg", "c.jpg", "d.jpg", "e.jpg", "f.jpg"])]
    { fs := [(⟨"train", "Forward", "b.jpg"⟩, "raw/like/b.jpg"),
             (⟨"train", "Forward", "f.jpg"⟩, "raw/like/f.jpg"),
             (⟨"train", "Forward", "c.jpg"⟩, "raw/like/c.jpg"),
             (⟨"train", "Forward", "e.jpg"⟩, "raw/like/e.jpg"),
             (⟨"val", "Forward", "d.jpg"⟩, "raw/like/d.jpg"),
             (⟨"test", "Forward", "a.jpg"⟩, "raw/like/a.jpg")],
      rng := 1250496027, totalCopied := 6 } (by rfl)
    ⟨"train", "Forward", "b.jpg"⟩ "raw/like/b.jpg" (by decide)
  exact h

/-- Witness for C2's amended theorem at concrete seeds and RNG states. -/
theorem c2_witness :
    copy_split 42 0 [("Forward", ["d1/a.jpg"])] =
      copy_split 42 999 [("Forward", ["d1/a.jpg"])] :=
  c2_amended_split_deterministic 42 0 999 [("Forward", ["d1/a.jpg"])]

/-- Witness for C5's amended theorem at two concrete ratio triples. -/
theorem c5_witness :
    startup_gate (1/2, 1/10, 1/10) (some [("like", ["a.jpg"])]) =
      startup_gate (8/10, 1/10, 1/10) (some [("like", ["a.jpg"])]) :=
  c5_amended_no_ratio_validation.2 (1/2, 1/10, 1/10) (8/10, 1/10, 1/10)
    (some [("like", ["a.jpg"])])

/-- Witness for C6's amended theorem: a raw root with one (empty)
subdirectory scans to a non-empty mapping, so the gate passes. -/
theorem c6_witness :
    collect_images_per_class "raw" (some [("like", [])]) ≠ [] := by
  intro h
  have h2 := (c6_amended_gate.2 "raw" [("like", [])]).mp h
  simp at h2
